import Mathlib

/-!
A shallow embedding of `src/lib.rs` (the `cryptopunks` ink! contract).

Modelling conventions, applied uniformly:
* `AccountId` is an opaque identity compared only for equality: `Nat`.
* `Balance` (u128) and the u32 counters are embedded as `Nat`; every
  arithmetic step the source performs on a machine integer is guarded
  explicitly (`U32LIM`, underflow guards), since the contract build traps on
  wrap-around and a trapped message reverts.
* `ink_storage::lazy::Mapping` is embedded as an association list with
  first-match lookup and replace-first insert (`mapGet` / `mapSet`); every
  reachable map is built from the empty list, so keys stay distinct.
* A message that completes returns `some` of the new storage; a message that
  panics (a failed `assert!` / `expect` / trapped arithmetic) reverts all of
  its writes and is embedded as `none`.
* Events are notifications for an external collaborator and carry no storage
  state; they are not modelled.
* The external funds release inside `withdraw` (`env().transfer(..)`) is an
  external primitive that fully succeeds or fully fails; it is modelled by a
  boolean outcome `release_ok`, the failing case reverting the call.
-/

/-- One more than the largest `u32` value. -/
def U32LIM : Nat := 4294967296

/-- One more than the largest `u128` value. -/
def U128LIM : Nat := 340282366920938463463374607431768211456

/-- First-match lookup in an association list, the embedding of
`Mapping::get` (`None` = no entry). -/
def mapGet {K V : Type} [DecidableEq K] : List (K × V) → K → Option V
  | [], _ => none
  | (k', v) :: m, k => if k' = k then some v else mapGet m k

/-- Replace-first insert in an association list, the embedding of
`Mapping::insert`: overwrites the first entry with the key, else appends. -/
def mapSet {K V : Type} [DecidableEq K] : List (K × V) → K → V → List (K × V)
  | [], k, v => [(k, v)]
  | (k', v') :: m, k, v =>
      if k' = k then (k, v) :: m else (k', v') :: mapSet m k v

/-- Sum of all values stored in a `Nat`-valued map (used in stating the
supply-conservation invariant over `balance_of`). -/
def mapValSum {K : Type} (m : List (K × Nat)) : Nat :=
  (m.map Prod.snd).sum

/-- How many entries of the map hold the value `a` (used in counting the punks
an account owns in `punk_index_to_address`). -/
def countVal {K V : Type} [DecidableEq V] (m : List (K × V)) (a : V) : Nat :=
  m.countP fun p => decide (p.2 = a)

/-- The punk/offer/withdrawal/balance storage of `src/lib.rs` lines 9-22. -/
structure Offer where
  is_for_sale : Bool
  punk_index : Nat
  seller : Nat
  min_value : Nat
  only_sell_to : Option Nat
deriving DecidableEq

/-- The contract storage struct, `src/lib.rs` lines 11-22.  `AccountId` is
embedded as `Nat`. -/
structure Cryptopunks where
  owner : Nat
  total_supply : Nat
  punks_remaining_to_assign : Nat
  number_of_punks_to_reserve : Nat
  number_of_punks_reserved : Nat
  next_punk_index_to_assign : Nat
  punk_index_to_address : List (Nat × Nat)
  punks_offered_for_sale : List (Nat × Offer)
  pending_withdrawals : List (Nat × Nat)
  balance_of : List (Nat × Nat)
deriving DecidableEq

/-- The constructor, `src/lib.rs` lines 81-91: the deploying caller becomes
the privileged owner; the mappings start empty (`Default`). -/
def Cryptopunks.new (deployer : Nat) : Cryptopunks where
  owner := deployer
  total_supply := 1000
  punks_remaining_to_assign := 1000
  number_of_punks_to_reserve := 1000
  number_of_punks_reserved := 0
  next_punk_index_to_assign := 0
  punk_index_to_address := []
  punks_offered_for_sale := []
  pending_withdrawals := []
  balance_of := []

/-- The effect of the `while` loop of `reserve_punks_for_owner`
(`src/lib.rs` lines 101-112): starting at index `st` it inserts `n`
consecutive indices, all mapped onto `a`, left first. -/
def assignRange : List (Nat × Nat) → Nat → Nat → Nat → List (Nat × Nat)
  | m, _, 0, _ => m
  | m, st, n + 1, a => assignRange (mapSet m st a) (st + 1) n a

/-- `reserve_punks_for_owner`, `src/lib.rs` lines 94-120.  The loop runs
while `this_run < number_of_punks_to_reserve && this_run < max_for_this_run`,
so it performs `min quota max_for_this_run` insertions regardless of how many
punks were reserved before.  The guard conjunction embeds the u32 arithmetic
of lines 110-118: the subtraction on line 113 and the three increments trap
(reverting the call) outside it. -/
def reserve_punks_for_owner (s : Cryptopunks) (caller max_for_this_run : Nat) :
    Option Cryptopunks :=
  if caller = s.owner then
    if s.number_of_punks_reserved ≤ s.number_of_punks_to_reserve then
      let n := min s.number_of_punks_to_reserve max_for_this_run
      let prev := (mapGet s.balance_of caller).getD 0
      if n ≤ s.punks_remaining_to_assign ∧
          s.next_punk_index_to_assign + n < U32LIM ∧
          s.number_of_punks_reserved + n < U32LIM ∧
          prev + n < U32LIM then
        some { s with
          punk_index_to_address :=
            assignRange s.punk_index_to_address s.next_punk_index_to_assign n caller
          next_punk_index_to_assign := s.next_punk_index_to_assign + n
          punks_remaining_to_assign := s.punks_remaining_to_assign - n
          number_of_punks_reserved := s.number_of_punks_reserved + n
          balance_of := mapSet s.balance_of caller (prev + n) }
      else none
    else none
  else none

/-- `get_punk` (public claim of one unassigned punk), `src/lib.rs` lines
122-135.  No bound is checked on `punk_index` beyond it being a u32 supplied
by the caller. -/
def get_punk (s : Cryptopunks) (caller punk_index : Nat) : Option Cryptopunks :=
  if 0 < s.punks_remaining_to_assign then
    if mapGet s.punk_index_to_address punk_index = none then
      let amount := (mapGet s.balance_of caller).getD 0
      if amount + 1 < U32LIM then
        some { s with
          punk_index_to_address := mapSet s.punk_index_to_address punk_index caller
          balance_of := mapSet s.balance_of caller (amount + 1)
          punks_remaining_to_assign := s.punks_remaining_to_assign - 1 }
      else none
    else none
  else none

/-- `transfer_punk`, `src/lib.rs` lines 137-163.  The receiver balance is
read back only after the holder balance was decremented and written, exactly
as in the source (lines 145-152); `expect("Holder has at least 1 punk")` and
the u32 decrement trap are the two failure points after the ownership
checks. -/
def transfer_punk (s : Cryptopunks) (caller to' punk_index : Nat) :
    Option Cryptopunks :=
  match mapGet s.punk_index_to_address punk_index with
  | none => none
  | some powner =>
    if powner = caller then
      match mapGet s.balance_of caller with
      | none => none
      | some holder_balance =>
        if 0 < holder_balance then
          let b1 := mapSet s.balance_of caller (holder_balance - 1)
          let receiver_balance := (mapGet b1 to').getD 0
          if receiver_balance + 1 < U32LIM then
            some { s with
              punk_index_to_address := mapSet s.punk_index_to_address punk_index to'
              balance_of := mapSet b1 to' (receiver_balance + 1) }
          else none
        else none
    else none

/-- `offer_punk_for_sale`, `src/lib.rs` lines 165-189: only the current
owner may offer; any existing offer for the index is overwritten. -/
def offer_punk_for_sale (s : Cryptopunks) (caller punk_index min_sale_price : Nat)
    (address : Option Nat) : Option Cryptopunks :=
  if mapGet s.punk_index_to_address punk_index = some caller then
    some { s with
      punks_offered_for_sale := mapSet s.punks_offered_for_sale punk_index
        { is_for_sale := true
          punk_index := punk_index
          seller := caller
          min_value := min_sale_price
          only_sell_to := address } }
  else none

/-- `buy_punk`, `src/lib.rs` lines 191-223, with `no_longer_for_sale`
(lines 225-235) inlined at the end: the cleared offer records the buyer
(the caller of `no_longer_for_sale`) as `seller`, price 0, no restriction.
`transferred` is the payment attached on the call
(`env().transferred_balance()`). -/
def buy_punk (s : Cryptopunks) (caller punk_index transferred : Nat) :
    Option Cryptopunks :=
  match mapGet s.punks_offered_for_sale punk_index with
  | none => none
  | some offer =>
    if offer.is_for_sale then
      if offer.only_sell_to = none ∨ offer.only_sell_to = some caller then
        if offer.min_value ≤ transferred then
          if mapGet s.punk_index_to_address punk_index = some offer.seller then
            some { s with
              pending_withdrawals := mapSet s.pending_withdrawals offer.seller transferred
              punks_offered_for_sale := mapSet s.punks_offered_for_sale punk_index
                { is_for_sale := false
                  punk_index := punk_index
                  seller := caller
                  min_value := 0
                  only_sell_to := none } }
          else none
        else none
      else none
    else none

/-- `withdraw`, `src/lib.rs` lines 237-248.  `release_ok` is the outcome of
the external funds release (`env().transfer`); when it fails the `expect`
panics and the whole call, the zeroing included, reverts. -/
def withdraw (s : Cryptopunks) (caller : Nat) (release_ok : Bool) :
    Option Cryptopunks :=
  match mapGet s.pending_withdrawals caller with
  | none => none
  | some amount =>
    if 0 < amount then
      if release_ok then
        some { s with pending_withdrawals := mapSet s.pending_withdrawals caller 0 }
      else none
    else none

/-- One contract message together with its caller and environment inputs. -/
inductive Op where
  | reserve (caller maxRun : Nat)
  | claim (caller punkIndex : Nat)
  | transfer (caller to' punkIndex : Nat)
  | offer (caller punkIndex minPrice : Nat) (addr : Option Nat)
  | buy (caller punkIndex payment : Nat)
  | withdraw (caller : Nat) (releaseOk : Bool)

/-- The machine-width bounds on a message's scalar arguments (indices and
run bounds are u32, prices and payments are u128). -/
def Op.valid : Op → Bool
  | .reserve _ m => decide (m < U32LIM)
  | .claim _ i => decide (i < U32LIM)
  | .transfer _ _ i => decide (i < U32LIM)
  | .offer _ i p _ => decide (i < U32LIM ∧ p < U128LIM)
  | .buy _ i p => decide (i < U32LIM ∧ p < U128LIM)
  | .withdraw _ _ => true

/-- Dispatch one message against the storage. -/
def Cryptopunks.call (s : Cryptopunks) : Op → Option Cryptopunks
  | .reserve c m => reserve_punks_for_owner s c m
  | .claim c i => get_punk s c i
  | .transfer c to' i => transfer_punk s c to' i
  | .offer c i p a => offer_punk_for_sale s c i p a
  | .buy c i p => buy_punk s c i p
  | .withdraw c ok => withdraw s c ok

/-- The states a deployed contract can be in: the constructed storage, plus
anything a completed (non-reverting) message reaches from one. -/
inductive Reachable : Cryptopunks → Prop where
  | init (deployer : Nat) : Reachable (Cryptopunks.new deployer)
  | step {s s' : Cryptopunks} (op : Op) :
      Reachable s → op.valid = true → s.call op = some s' → Reachable s'


/-! ### Laws of the association-list map -/

theorem mapGet_set_self {K V : Type} [DecidableEq K] (l : List (K × V)) (k : K) (v : V) :
    mapGet (mapSet l k v) k = some v := by
  induction l with
  | nil => simp [mapSet, mapGet]
  | cons p m ih =>
    obtain ⟨x, y⟩ := p
    by_cases hxk : x = k
    · subst hxk
      simp [mapSet, mapGet]
    · simp [mapSet, mapGet, hxk, ih]

theorem mapGet_set_ne {K V : Type} [DecidableEq K] (l : List (K × V)) {k k' : K} (v : V)
    (h : k' ≠ k) : mapGet (mapSet l k v) k' = mapGet l k' := by
  induction l with
  | nil => simp [mapSet, mapGet, Ne.symm h]
  | cons p m ih =>
    obtain ⟨x, y⟩ := p
    by_cases hxk : x = k
    · subst hxk
      simp [mapSet, mapGet, Ne.symm h]
    · simp [mapSet, mapGet, hxk, ih]

theorem mapValSum_nil {K : Type} : mapValSum ([] : List (K × Nat)) = 0 := rfl

theorem mapValSum_cons {K : Type} (p : K × Nat) (m : List (K × Nat)) :
    mapValSum (p :: m) = p.2 + mapValSum m := by
  simp [mapValSum]

theorem mapValSum_set {K : Type} [DecidableEq K] (l : List (K × Nat)) (k : K) (v : Nat) :
    mapValSum (mapSet l k v) + (mapGet l k).getD 0 = mapValSum l + v := by
  induction l with
  | nil => simp [mapSet, mapGet, mapValSum]
  | cons p m ih =>
    obtain ⟨x, y⟩ := p
    by_cases hxk : x = k
    · subst hxk
      simp [mapSet, mapGet, mapValSum_cons]
      omega
    · simp [mapSet, mapGet, hxk, mapValSum_cons]
      omega

theorem mapGet_le_mapValSum {K : Type} [DecidableEq K] (l : List (K × Nat)) (k : K)
    (v : Nat) (h : mapGet l k = some v) : v ≤ mapValSum l := by
  induction l with
  | nil => simp [mapGet] at h
  | cons p m ih =>
    obtain ⟨x, y⟩ := p
    simp only [mapGet] at h
    rw [mapValSum_cons]
    split at h
    · cases h
      omega
    · have := ih h
      omega

theorem countVal_nil {K V : Type} [DecidableEq V] (a : V) :
    countVal ([] : List (K × V)) a = 0 := rfl

theorem countVal_cons_pair {K V : Type} [DecidableEq V] (x : K) (y : V)
    (m : List (K × V)) (a : V) :
    countVal ((x, y) :: m) a = countVal m a + (if y = a then 1 else 0) := by
  by_cases h : y = a <;> simp [countVal, List.countP_cons, h]

theorem mapSet_cons {K V : Type} [DecidableEq K] (x : K) (y : V) (m : List (K × V))
    (k : K) (v : V) :
    mapSet ((x, y) :: m) k v
      = if x = k then (k, v) :: m else (x, y) :: mapSet m k v := rfl

theorem countVal_set_le {K V : Type} [DecidableEq K] [DecidableEq V]
    (l : List (K × V)) (k : K) (v a : V) :
    countVal (mapSet l k v) a ≤ countVal l a + (if v = a then 1 else 0) := by
  induction l with
  | nil =>
    rw [show mapSet ([] : List (K × V)) k v = [(k, v)] from rfl, countVal_cons_pair]
  | cons p m ih =>
    obtain ⟨x, y⟩ := p
    by_cases hxk : x = k
    · rw [mapSet_cons, if_pos hxk, countVal_cons_pair, countVal_cons_pair]
      omega
    · rw [mapSet_cons, if_neg hxk, countVal_cons_pair, countVal_cons_pair]
      omega

theorem countVal_set_get {K V : Type} [DecidableEq K] [DecidableEq V]
    (l : List (K × V)) (k : K) {w : V} (v a : V) (h : mapGet l k = some w) :
    countVal (mapSet l k v) a + (if w = a then 1 else 0)
      = countVal l a + (if v = a then 1 else 0) := by
  induction l with
  | nil => simp [mapGet] at h
  | cons p m ih =>
    obtain ⟨x, y⟩ := p
    simp only [mapGet] at h
    by_cases hxk : x = k
    · rw [if_pos hxk] at h
      cases h
      rw [mapSet_cons, if_pos hxk, countVal_cons_pair, countVal_cons_pair]
      omega
    · rw [if_neg hxk] at h
      have := ih h
      rw [mapSet_cons, if_neg hxk, countVal_cons_pair, countVal_cons_pair]
      omega

theorem countVal_pos {K V : Type} [DecidableEq K] [DecidableEq V]
    (l : List (K × V)) (k : K) (a : V) (h : mapGet l k = some a) :
    0 < countVal l a := by
  induction l with
  | nil => simp [mapGet] at h
  | cons p m ih =>
    obtain ⟨x, y⟩ := p
    simp only [mapGet] at h
    rw [countVal_cons_pair]
    split at h
    · cases h
      rw [if_pos rfl]
      omega
    · have := ih h
      omega

theorem mapSet_get_eq {K V : Type} [DecidableEq K] (l : List (K × V)) (k : K) (v : V)
    (h : mapGet l k = some v) : mapSet l k v = l := by
  induction l with
  | nil => simp [mapGet] at h
  | cons p m ih =>
    obtain ⟨x, y⟩ := p
    simp only [mapGet] at h
    by_cases hxk : x = k
    · rw [if_pos hxk] at h
      cases h
      simp [mapSet, hxk]
    · rw [if_neg hxk] at h
      simp [mapSet, hxk, ih h]

theorem mapSet_mapSet {K V : Type} [DecidableEq K] (l : List (K × V)) (k : K) (v w : V) :
    mapSet (mapSet l k v) k w = mapSet l k w := by
  induction l with
  | nil => simp [mapSet]
  | cons p m ih =>
    obtain ⟨x, y⟩ := p
    by_cases hxk : x = k
    · simp [mapSet, hxk]
    · simp [mapSet, hxk, ih]

theorem assignRange_get_ge (l : List (Nat × Nat)) (st n a i : Nat) (h : st + n ≤ i) :
    mapGet (assignRange l st n a) i = mapGet l i := by
  induction n generalizing l st with
  | zero => rfl
  | succ n ih =>
    show mapGet (assignRange (mapSet l st a) (st + 1) n a) i = mapGet l i
    rw [ih _ _ (by omega), mapGet_set_ne _ _ (by omega)]

theorem countVal_assignRange_le (l : List (Nat × Nat)) (st n a c : Nat) :
    countVal (assignRange l st n a) c ≤ countVal l c + (if a = c then n else 0) := by
  induction n generalizing l st with
  | zero => simp [assignRange]
  | succ n ih =>
    show countVal (assignRange (mapSet l st a) (st + 1) n a) c ≤ _
    have h1 := ih (mapSet l st a) (st + 1)
    have h2 := countVal_set_le l st a c
    by_cases hac : a = c <;> simp [hac] at h1 h2 ⊢ <;> omega

/-! ### The inductive invariant of reachable storage -/

/-- Facts that hold in every reachable storage state: the scalars fixed by
the constructor, the lock-step between `next_punk_index_to_assign` and
`number_of_punks_reserved` (both are incremented only inside the reserve
loop), the conservation `sum(balance_of) + remaining = 1000`, and the fact
that each account's stored balance dominates the number of punks it owns. -/
def ContractInv (s : Cryptopunks) : Prop :=
  s.total_supply = 1000 ∧
  s.number_of_punks_to_reserve = 1000 ∧
  s.next_punk_index_to_assign = s.number_of_punks_reserved ∧
  s.number_of_punks_reserved + s.punks_remaining_to_assign ≤ 1000 ∧
  mapValSum s.balance_of + s.punks_remaining_to_assign = 1000 ∧
  ∀ a : Nat, countVal s.punk_index_to_address a ≤ (mapGet s.balance_of a).getD 0

theorem inv_new (d : Nat) : ContractInv (Cryptopunks.new d) := by
  refine ⟨rfl, rfl, rfl, by simp [Cryptopunks.new], rfl, ?_⟩
  intro a
  show countVal [] a ≤ (mapGet ([] : List (Nat × Nat)) a).getD 0
  simp [countVal, mapGet]

theorem inv_reserve {s s' : Cryptopunks} {c m : Nat} (h : ContractInv s)
    (hc : reserve_punks_for_owner s c m = some s') : ContractInv s' := by
  obtain ⟨h1, h2, h3, h4, h5, h6⟩ := h
  simp only [reserve_punks_for_owner] at hc
  split at hc
  · split at hc
    · split at hc
      · rename_i hcal hres hgrd
        obtain ⟨hg1, hg2, hg3, hg4⟩ := hgrd
        injection hc with hc
        subst hc
        refine ⟨h1, h2, ?_, ?_, ?_, ?_⟩
        · show s.next_punk_index_to_assign + min s.number_of_punks_to_reserve m
            = s.number_of_punks_reserved + min s.number_of_punks_to_reserve m
          omega
        · show s.number_of_punks_reserved + min s.number_of_punks_to_reserve m
            + (s.punks_remaining_to_assign - min s.number_of_punks_to_reserve m) ≤ 1000
          omega
        · show mapValSum (mapSet s.balance_of c
              ((mapGet s.balance_of c).getD 0 + min s.number_of_punks_to_reserve m))
            + (s.punks_remaining_to_assign - min s.number_of_punks_to_reserve m) = 1000
          have e1 := mapValSum_set s.balance_of c
            ((mapGet s.balance_of c).getD 0 + min s.number_of_punks_to_reserve m)
          omega
        · intro a
          show countVal (assignRange s.punk_index_to_address s.next_punk_index_to_assign
              (min s.number_of_punks_to_reserve m) c) a
            ≤ (mapGet (mapSet s.balance_of c
              ((mapGet s.balance_of c).getD 0 + min s.number_of_punks_to_reserve m)) a).getD 0
          have hcnt := countVal_assignRange_le s.punk_index_to_address
            s.next_punk_index_to_assign (min s.number_of_punks_to_reserve m) c a
          by_cases hac : a = c
          · subst hac
            rw [mapGet_set_self, Option.getD_some]
            rw [if_pos rfl] at hcnt
            have h6a := h6 a
            omega
          · rw [mapGet_set_ne _ _ hac]
            rw [if_neg (fun hh => hac hh.symm)] at hcnt
            have h6a := h6 a
            omega
      · exact Option.noConfusion hc
    · exact Option.noConfusion hc
  · exact Option.noConfusion hc

theorem inv_claim {s s' : Cryptopunks} {c i : Nat} (h : ContractInv s)
    (hc : get_punk s c i = some s') : ContractInv s' := by
  obtain ⟨h1, h2, h3, h4, h5, h6⟩ := h
  simp only [get_punk] at hc
  split at hc
  · split at hc
    · split at hc
      · rename_i hrem hnone hb32
        injection hc with hc
        subst hc
        refine ⟨h1, h2, h3, ?_, ?_, ?_⟩
        · show s.number_of_punks_reserved + (s.punks_remaining_to_assign - 1) ≤ 1000
          omega
        · show mapValSum (mapSet s.balance_of c ((mapGet s.balance_of c).getD 0 + 1))
            + (s.punks_remaining_to_assign - 1) = 1000
          have e1 := mapValSum_set s.balance_of c ((mapGet s.balance_of c).getD 0 + 1)
          omega
        · intro a
          show countVal (mapSet s.punk_index_to_address i c) a
            ≤ (mapGet (mapSet s.balance_of c ((mapGet s.balance_of c).getD 0 + 1)) a).getD 0
          have hcnt := countVal_set_le s.punk_index_to_address i c a
          by_cases hac : a = c
          · subst hac
            rw [mapGet_set_self, Option.getD_some]
            rw [if_pos rfl] at hcnt
            have h6a := h6 a
            omega
          · rw [mapGet_set_ne _ _ hac]
            rw [if_neg (fun hh => hac hh.symm)] at hcnt
            have h6a := h6 a
            omega
      · exact Option.noConfusion hc
    · exact Option.noConfusion hc
  · exact Option.noConfusion hc

theorem inv_transfer {s s' : Cryptopunks} {c t i : Nat} (h : ContractInv s)
    (hc : transfer_punk s c t i = some s') : ContractInv s' := by
  obtain ⟨h1, h2, h3, h4, h5, h6⟩ := h
  simp only [transfer_punk] at hc
  split at hc
  · exact Option.noConfusion hc
  · rename_i powner hpm
    split at hc
    · rename_i hpc
      subst hpc
      split at hc
      · exact Option.noConfusion hc
      · rename_i hb hbal
        split at hc
        · rename_i hb0
          split at hc
          · rename_i h32
            injection hc with hc
            subst hc
            refine ⟨h1, h2, h3, h4, ?_, ?_⟩
            · show mapValSum (mapSet (mapSet s.balance_of powner (hb - 1)) t
                  ((mapGet (mapSet s.balance_of powner (hb - 1)) t).getD 0 + 1))
                + s.punks_remaining_to_assign = 1000
              have e1 := mapValSum_set s.balance_of powner (hb - 1)
              rw [hbal, Option.getD_some] at e1
              have e2 := mapValSum_set (mapSet s.balance_of powner (hb - 1)) t
                ((mapGet (mapSet s.balance_of powner (hb - 1)) t).getD 0 + 1)
              omega
            · intro a
              show countVal (mapSet s.punk_index_to_address i t) a
                ≤ (mapGet (mapSet (mapSet s.balance_of powner (hb - 1)) t
                    ((mapGet (mapSet s.balance_of powner (hb - 1)) t).getD 0 + 1)) a).getD 0
              have hcnt := countVal_set_get s.punk_index_to_address i t a hpm
              have h6a := h6 a
              by_cases hat : a = t
              · subst hat
                rw [mapGet_set_self, Option.getD_some]
                rw [if_pos rfl] at hcnt
                by_cases hca : powner = a
                · subst hca
                  rw [if_pos rfl] at hcnt
                  rw [mapGet_set_self, Option.getD_some]
                  rw [hbal, Option.getD_some] at h6a
                  omega
                · rw [if_neg hca] at hcnt
                  rw [mapGet_set_ne _ _ (fun hh => hca hh.symm)]
                  omega
              · rw [mapGet_set_ne _ _ hat]
                rw [if_neg (show ¬ t = a from fun hh => hat hh.symm)] at hcnt
                by_cases hca : powner = a
                · subst hca
                  rw [if_pos rfl] at hcnt
                  rw [mapGet_set_self, Option.getD_some]
                  rw [hbal, Option.getD_some] at h6a
                  omega
                · rw [if_neg hca] at hcnt
                  rw [mapGet_set_ne _ _ (show a ≠ powner from fun hh => hca hh.symm)]
                  omega
          · exact Option.noConfusion hc
        · exact Option.noConfusion hc
    · exact Option.noConfusion hc

theorem inv_offer {s s' : Cryptopunks} {c i p : Nat} {ad : Option Nat} (h : ContractInv s)
    (hc : offer_punk_for_sale s c i p ad = some s') : ContractInv s' := by
  simp only [offer_punk_for_sale] at hc
  split at hc
  · injection hc with hc
    subst hc
    exact h
  · exact Option.noConfusion hc

theorem inv_buy {s s' : Cryptopunks} {c i p : Nat} (h : ContractInv s)
    (hc : buy_punk s c i p = some s') : ContractInv s' := by
  simp only [buy_punk] at hc
  split at hc
  · exact Option.noConfusion hc
  · split at hc
    · split at hc
      · split at hc
        · split at hc
          · injection hc with hc
            subst hc
            exact h
          · exact Option.noConfusion hc
        · exact Option.noConfusion hc
      · exact Option.noConfusion hc
    · exact Option.noConfusion hc

theorem inv_withdraw {s s' : Cryptopunks} {c : Nat} {ok : Bool} (h : ContractInv s)
    (hc : withdraw s c ok = some s') : ContractInv s' := by
  simp only [withdraw] at hc
  split at hc
  · exact Option.noConfusion hc
  · split at hc
    · split at hc
      · injection hc with hc
        subst hc
        exact h
      · exact Option.noConfusion hc
    · exact Option.noConfusion hc

theorem inv_call {s s' : Cryptopunks} (op : Op) (h : ContractInv s)
    (hc : s.call op = some s') : ContractInv s' := by
  cases op with
  | reserve c m => exact inv_reserve h hc
  | claim c i => exact inv_claim h hc
  | transfer c t i => exact inv_transfer h hc
  | offer c i p a => exact inv_offer h hc
  | buy c i p => exact inv_buy h hc
  | withdraw c ok => exact inv_withdraw h hc

theorem inv_reachable {s : Cryptopunks} (h : Reachable s) : ContractInv s := by
  induction h with
  | init d => exact inv_new d
  | step op hr hv hc ih => exact inv_call op ih hc

/-! ### The claims -/

/-- Claim C1 (confirmed): for every state reachable from construction by any
sequence of completed calls, the sum of all per-account balances equals
`total_supply - punks_remaining_to_assign`. -/
theorem C1_supply_conservation (s : Cryptopunks) (h : Reachable s) :
    mapValSum s.balance_of = s.total_supply - s.punks_remaining_to_assign := by
  obtain ⟨h1, _, _, _, h5, _⟩ := inv_reachable h
  omega

/-- Claim C1, witness: the conservation law applied at the concrete state
reached by deploying (account 0) and letting account 7 claim punk 3. -/
theorem C1_supply_conservation_witness :
    mapValSum (⟨0, 1000, 999, 1000, 0, 0, [(3, 7)], [], [], [(7, 1)]⟩ : Cryptopunks).balance_of
      = (⟨0, 1000, 999, 1000, 0, 0, [(3, 7)], [], [], [(7, 1)]⟩ : Cryptopunks).total_supply
        - (⟨0, 1000, 999, 1000, 0, 0, [(3, 7)], [], [], [(7, 1)]⟩ : Cryptopunks).punks_remaining_to_assign :=
  C1_supply_conservation _ (Reachable.step (Op.claim 7 3) (Reachable.init 0) rfl rfl)

/-- Claim C2 fails on the code: `balance_of` desynchronises from
`punk_index_to_address`.  From a fresh contract deployed by account 0,
account 1 claims punk 0; the owner then calls `reserve_punks_for_owner(1)`,
whose loop starts at `next_punk_index_to_assign = 0` (claims do not advance
it) and overwrites punk 0's owner without decrementing account 1's balance.
The reachable result: account 1 has stored balance 1 but owns no punk. -/
theorem C2_balance_desync :
    ∃ s : Cryptopunks, Reachable s ∧
      mapGet s.balance_of 1 = some 1 ∧ countVal s.punk_index_to_address 1 = 0 :=
  ⟨⟨0, 1000, 998, 1000, 1, 1, [(0, 0)], [], [], [(1, 1), (0, 1)]⟩,
    Reachable.step (Op.reserve 0 1)
      (Reachable.step (Op.claim 1 0) (Reachable.init 0) rfl rfl) rfl rfl,
    rfl, rfl⟩

/-- Claim C3 (confirmed): whenever `buy_punk` succeeds against a stored
offer, the seller's pending-withdrawal entry afterwards is exactly the
payment — the credit overwrites whatever was escrowed before, it does not
add. -/
theorem C3_buy_overwrites_escrow (s : Cryptopunks) (c i p : Nat) (off : Offer)
    (s' : Cryptopunks) (hoff : mapGet s.punks_offered_for_sale i = some off)
    (hc : buy_punk s c i p = some s') :
    mapGet s'.pending_withdrawals off.seller = some p := by
  simp only [buy_punk, hoff] at hc
  split at hc
  · split at hc
    · split at hc
      · split at hc
        · injection hc with hc
          subst hc
          exact mapGet_set_self _ _ _
        · exact Option.noConfusion hc
      · exact Option.noConfusion hc
    · exact Option.noConfusion hc
  · exact Option.noConfusion hc

/-- Claim C3, witness: account 1 has an open offer on punk 5 at minimum 10
and 33 already escrowed from an earlier sale; account 2 buys at 50, and the
escrow afterwards is 50, not 83. -/
theorem C3_buy_overwrites_escrow_witness :
    mapGet (⟨0, 1000, 999, 1000, 0, 0, [(5, 1)], [(5, ⟨false, 5, 2, 0, none⟩)],
        [(1, 50)], [(1, 1)]⟩ : Cryptopunks).pending_withdrawals
      (⟨true, 5, 1, 10, none⟩ : Offer).seller = some 50 :=
  C3_buy_overwrites_escrow
    ⟨0, 1000, 999, 1000, 0, 0, [(5, 1)], [(5, ⟨true, 5, 1, 10, none⟩)], [(1, 33)], [(1, 1)]⟩
    2 5 50 ⟨true, 5, 1, 10, none⟩ _ rfl rfl

/-- Claim C4 (confirmed): a `buy_punk` call, successful or not, leaves the
asset-to-owner mapping and every per-account balance exactly as they were;
after a success the asset's registered owner is still the offer's seller. -/
theorem C4_buy_frame (s : Cryptopunks) (c i p : Nat) (s' : Cryptopunks)
    (hc : buy_punk s c i p = some s') :
    s'.punk_index_to_address = s.punk_index_to_address ∧
    s'.balance_of = s.balance_of ∧
    ∀ off : Offer, mapGet s.punks_offered_for_sale i = some off →
      mapGet s'.punk_index_to_address i = some off.seller := by
  simp only [buy_punk] at hc
  split at hc
  · exact Option.noConfusion hc
  · rename_i off0 hoff0
    split at hc
    · split at hc
      · split at hc
        · split at hc
          · rename_i hsale hwho hmin hseller
            injection hc with hc
            subst hc
            refine ⟨rfl, rfl, ?_⟩
            intro off' hoff'
            rw [hoff0] at hoff'
            injection hoff' with he
            subst he
            exact hseller
          · exact Option.noConfusion hc
        · exact Option.noConfusion hc
      · exact Option.noConfusion hc
    · exact Option.noConfusion hc

/-- Claim C4, witness: account 9 buys punk 7 (offered by its owner,
account 4, restricted to account 9) for 20; the owner table and balances
are untouched and punk 7 is still registered with account 4. -/
theorem C4_buy_frame_witness :
    (⟨3, 1000, 999, 1000, 0, 0, [(7, 4)], [(7, ⟨false, 7, 9, 0, none⟩)],
        [(4, 20)], [(4, 1)]⟩ : Cryptopunks).punk_index_to_address
      = (⟨3, 1000, 999, 1000, 0, 0, [(7, 4)], [(7, ⟨true, 7, 4, 20, some 9⟩)],
          [], [(4, 1)]⟩ : Cryptopunks).punk_index_to_address ∧
    (⟨3, 1000, 999, 1000, 0, 0, [(7, 4)], [(7, ⟨false, 7, 9, 0, none⟩)],
        [(4, 20)], [(4, 1)]⟩ : Cryptopunks).balance_of
      = (⟨3, 1000, 999, 1000, 0, 0, [(7, 4)], [(7, ⟨true, 7, 4, 20, some 9⟩)],
          [], [(4, 1)]⟩ : Cryptopunks).balance_of ∧
    ∀ off : Offer,
      mapGet (⟨3, 1000, 999, 1000, 0, 0, [(7, 4)], [(7, ⟨true, 7, 4, 20, some 9⟩)],
          [], [(4, 1)]⟩ : Cryptopunks).punks_offered_for_sale 7 = some off →
        mapGet (⟨3, 1000, 999, 1000, 0, 0, [(7, 4)], [(7, ⟨false, 7, 9, 0, none⟩)],
            [(4, 20)], [(4, 1)]⟩ : Cryptopunks).punk_index_to_address 7 = some off.seller :=
  C4_buy_frame
    ⟨3, 1000, 999, 1000, 0, 0, [(7, 4)], [(7, ⟨true, 7, 4, 20, some 9⟩)], [], [(4, 1)]⟩
    9 7 20 _ rfl

/-- Claim C5 fails on the code: the reservation guard is
`number_of_punks_reserved <= number_of_punks_to_reserve` (`src/lib.rs`
line 97), so in the reachable state where the consumed reservation equals
the quota (1000 = 1000, i.e. consumed >= quota) a further owner call of
`reserve_punks_for_owner(0)` still completes instead of failing with
`Already all reservable punks reserved!`. -/
theorem C5_quota_guard_passes :
    ∃ s1 s2 : Cryptopunks,
      (Cryptopunks.new 0).call (Op.reserve 0 1000) = some s1 ∧
      s1.number_of_punks_to_reserve ≤ s1.number_of_punks_reserved ∧
      s1.call (Op.reserve 0 0) = some s2 := by
  refine ⟨_, _, rfl, ?_, rfl⟩
  decide

/-- Claim C6 fails on the code: `get_punk` never compares the index against
`total_supply`, so from a fresh contract account 1 claims index 1000 (equal
to the fixed supply, hence outside `[0, totalSupply)`) and the call
completes, storing an owner for the out-of-range asset. -/
theorem C6_out_of_range_claim :
    ∃ s : Cryptopunks, Reachable s ∧
      mapGet s.punk_index_to_address 1000 = some 1 ∧ s.total_supply ≤ 1000 :=
  ⟨⟨0, 1000, 999, 1000, 0, 0, [(1000, 1)], [], [], [(1, 1)]⟩,
    Reachable.step (Op.claim 1 1000) (Reachable.init 0) rfl rfl, rfl, by decide⟩

/-- Claim C6, amended: `reserve_punks_for_owner` alone never creates or
changes an owner entry at an index at or above `total_supply` — its loop
assigns the indices `[next, next + min(quota, max))`, and in every reachable
state `next + quota-remainder` stays below the supply.  The fixed-range
property fails only through `claim` (`get_punk`), which accepts any index. -/
theorem C6_reserve_stays_in_range (s : Cryptopunks) (h : Reachable s)
    (c m : Nat) (s' : Cryptopunks) (hc : s.call (Op.reserve c m) = some s')
    (i : Nat) (hi : s.total_supply ≤ i) :
    mapGet s'.punk_index_to_address i = mapGet s.punk_index_to_address i := by
  obtain ⟨h1, h2, h3, h4, _, _⟩ := inv_reachable h
  simp only [Cryptopunks.call, reserve_punks_for_owner] at hc
  split at hc
  · split at hc
    · split at hc
      · rename_i hcal hres hgrd
        obtain ⟨hg1, _, _, _⟩ := hgrd
        injection hc with hc
        subst hc
        show mapGet (assignRange s.punk_index_to_address s.next_punk_index_to_assign
            (min s.number_of_punks_to_reserve m) c) i = mapGet s.punk_index_to_address i
        apply assignRange_get_ge
        omega
      · exact Option.noConfusion hc
    · exact Option.noConfusion hc
  · exact Option.noConfusion hc

/-- Claim C6 (amended), witness: after the owner of a fresh contract
reserves 5 punks, every index from `total_supply` upwards — 1234 here — is
exactly as unassigned as before the call. -/
theorem C6_reserve_stays_in_range_witness :
    mapGet (⟨0, 1000, 995, 1000, 5, 5, [(0, 0), (1, 0), (2, 0), (3, 0), (4, 0)],
        [], [], [(0, 5)]⟩ : Cryptopunks).punk_index_to_address 1234
      = mapGet (Cryptopunks.new 0).punk_index_to_address 1234 :=
  C6_reserve_stays_in_range (Cryptopunks.new 0) (Reachable.init 0) 0 5 _ rfl 1234 (by decide)

/-- Claim C7 (confirmed): `transfer_punk` leaves the whole per-asset offer
table untouched — it neither inspects nor clears an offer, so an offer
posted before the transfer is still stored, unchanged, afterwards. -/
theorem C7_transfer_preserves_offers (s : Cryptopunks) (c t i : Nat) (s' : Cryptopunks)
    (hc : transfer_punk s c t i = some s') :
    s'.punks_offered_for_sale = s.punks_offered_for_sale := by
  simp only [transfer_punk] at hc
  split at hc
  · exact Option.noConfusion hc
  · split at hc
    · split at hc
      · exact Option.noConfusion hc
      · split at hc
        · split at hc
          · injection hc with hc
            subst hc
            rfl
          · exact Option.noConfusion hc
        · exact Option.noConfusion hc
    · exact Option.noConfusion hc

/-- Claim C7, witness: account 1 owns punk 5 with an open offer on it and
transfers the punk to account 2; the offer row afterwards is bitwise the
offer row before. -/
theorem C7_transfer_preserves_offers_witness :
    (⟨0, 1000, 999, 1000, 0, 0, [(5, 2)], [(5, ⟨true, 5, 1, 10, none⟩)],
        [], [(1, 0), (2, 1)]⟩ : Cryptopunks).punks_offered_for_sale
      = (⟨0, 1000, 999, 1000, 0, 0, [(5, 1)], [(5, ⟨true, 5, 1, 10, none⟩)],
          [], [(1, 1)]⟩ : Cryptopunks).punks_offered_for_sale :=
  C7_transfer_preserves_offers
    ⟨0, 1000, 999, 1000, 0, 0, [(5, 1)], [(5, ⟨true, 5, 1, 10, none⟩)], [], [(1, 1)]⟩
    1 2 5 _ rfl

/-- Claim C8 (confirmed): when the caller's pending withdrawal is a stored
positive amount, `withdraw` (with the external release succeeding) completes
and resets the entry to zero, and an immediately following `withdraw` by the
same caller reverts — the zero entry fails the positivity assertion. -/
theorem C8_withdraw_resets (s : Cryptopunks) (c amt : Nat)
    (hp : mapGet s.pending_withdrawals c = some amt) (hpos : 0 < amt) :
    ∃ s', withdraw s c true = some s' ∧
      mapGet s'.pending_withdrawals c = some 0 ∧
      ∀ ok : Bool, withdraw s' c ok = none := by
  refine ⟨{ s with pending_withdrawals := mapSet s.pending_withdrawals c 0 }, ?_, ?_, ?_⟩
  · simp [withdraw, hp, hpos]
  · exact mapGet_set_self _ _ _
  · intro ok
    show withdraw { s with pending_withdrawals := mapSet s.pending_withdrawals c 0 } c ok
      = none
    simp [withdraw, mapGet_set_self]

/-- Claim C8, witness: account 4 has 25 escrowed; its withdrawal succeeds,
leaves a zero entry, and a second withdrawal reverts whatever the external
release would do. -/
theorem C8_withdraw_resets_witness :
    ∃ s', withdraw (⟨0, 1000, 1000, 1000, 0, 0, [], [], [(4, 25)], []⟩ : Cryptopunks) 4 true
        = some s' ∧
      mapGet s'.pending_withdrawals 4 = some 0 ∧
      ∀ ok : Bool, withdraw s' 4 ok = none :=
  C8_withdraw_resets _ 4 25 rfl (by decide)

/-- Claim C9 (confirmed): from a fresh contract (supply 1000), two owner
calls of `reserve_punks_for_owner(500)` leave `punks_remaining_to_assign`
at 0 and the owner's stored balance at 1000: each call's loop bound compares
the per-call counter against the quota (1000), never against the remaining
quota, so the second call again reserves 500. -/
theorem C9_two_half_reserves :
    ∃ s1 s2 : Cryptopunks,
      (Cryptopunks.new 0).call (Op.reserve 0 500) = some s1 ∧
      s1.call (Op.reserve 0 500) = some s2 ∧
      s2.punks_remaining_to_assign = 0 ∧
      mapGet s2.balance_of 0 = some 1000 := by
  refine ⟨_, _, rfl, rfl, rfl, rfl⟩

/-- Claim C10 (confirmed): in any reachable state, a self-transfer of punk
`i` by its owner completes and returns the storage unchanged — the owner row
is overwritten with the same owner, and because the decremented holder
balance is written back before the receiver balance is read, the final
balance write restores the original value. -/
theorem C10_self_transfer_identity (s : Cryptopunks) (h : Reachable s) (c i : Nat)
    (hown : mapGet s.punk_index_to_address i = some c) :
    transfer_punk s c c i = some s := by
  obtain ⟨_, _, _, _, h5, h6⟩ := inv_reachable h
  have h6c := h6 c
  have hcpos : 0 < countVal s.punk_index_to_address c := countVal_pos _ i _ hown
  obtain ⟨b, hb⟩ : ∃ b, mapGet s.balance_of c = some b := by
    cases hbal : mapGet s.balance_of c with
    | none =>
      rw [hbal] at h6c
      exact absurd h6c (by simp [Option.getD]; omega)
    | some b => exact ⟨b, rfl⟩
  rw [hb, Option.getD_some] at h6c
  have hbpos : 0 < b := by omega
  have hble : b ≤ mapValSum s.balance_of := mapGet_le_mapValSum _ _ _ hb
  have hlim : U32LIM = 4294967296 := rfl
  simp only [transfer_punk, hown, hb]
  rw [if_pos trivial, if_pos hbpos, mapGet_set_self, Option.getD_some,
    Nat.sub_add_cancel hbpos]
  rw [if_pos (show b < U32LIM by omega)]
  rw [mapSet_mapSet, mapSet_get_eq _ _ _ hb, mapSet_get_eq _ _ _ hown]

/-- Claim C10, witness: account 1 claims punk 0 on a fresh contract and
then transfers it to itself; the resulting storage is the same state. -/
theorem C10_self_transfer_identity_witness :
    transfer_punk (⟨0, 1000, 999, 1000, 0, 0, [(0, 1)], [], [], [(1, 1)]⟩ : Cryptopunks) 1 1 0
      = some ⟨0, 1000, 999, 1000, 0, 0, [(0, 1)], [], [], [(1, 1)]⟩ :=
  C10_self_transfer_identity _
    (Reachable.step (Op.claim 1 0) (Reachable.init 0) rfl rfl) 1 0 rfl

/-! ### Keys of reachable maps are duplicate-free

`Mapping` is a real key-value store; the association-list embedding matches
it exactly on maps whose keys are pairwise distinct.  Every reachable state
builds its four maps from the empty list through `mapSet`/`assignRange`
only, and those preserve distinctness, so the embedding is faithful. -/

theorem mapSet_keys_mem {K V : Type} [DecidableEq K] (l : List (K × V)) (k : K) (v : V)
    {j : K} (h : j ∈ (mapSet l k v).map Prod.fst) : j = k ∨ j ∈ l.map Prod.fst := by
  induction l with
  | nil =>
    left
    simpa [mapSet] using h
  | cons p m ih =>
    obtain ⟨x, y⟩ := p
    rw [mapSet_cons] at h
    by_cases hxk : x = k
    · rw [if_pos hxk] at h
      simp only [List.map_cons, List.mem_cons] at h
      rcases h with h | h
      · exact Or.inl h
      · exact Or.inr (by simp [h])
    · rw [if_neg hxk] at h
      simp only [List.map_cons, List.mem_cons] at h
      rcases h with h | h
      · exact Or.inr (by simp [h])
      · rcases ih h with h' | h'
        · exact Or.inl h'
        · exact Or.inr (by simp [h'])

theorem mapSet_keys_nodup {K V : Type} [DecidableEq K] (l : List (K × V)) (k : K) (v : V)
    (h : (l.map Prod.fst).Nodup) : ((mapSet l k v).map Prod.fst).Nodup := by
  induction l with
  | nil => simp [mapSet]
  | cons p m ih =>
    obtain ⟨x, y⟩ := p
    simp only [List.map_cons, List.nodup_cons] at h
    obtain ⟨hx, hm⟩ := h
    rw [mapSet_cons]
    by_cases hxk : x = k
    · rw [if_pos hxk]
      simp only [List.map_cons, List.nodup_cons]
      exact ⟨hxk ▸ hx, hm⟩
    · rw [if_neg hxk]
      simp only [List.map_cons, List.nodup_cons]
      refine ⟨?_, ih hm⟩
      intro hmem
      rcases mapSet_keys_mem m k v hmem with h' | h'
      · exact hxk h'
      · exact hx h'

theorem assignRange_keys_nodup (l : List (Nat × Nat)) (st n a : Nat)
    (h : (l.map Prod.fst).Nodup) : ((assignRange l st n a).map Prod.fst).Nodup := by
  induction n generalizing l st with
  | zero => exact h
  | succ n ih => exact ih (mapSet l st a) (st + 1) (mapSet_keys_nodup _ _ _ h)

/-- Keys of all four storage maps are pairwise distinct. -/
def KeysNodup (s : Cryptopunks) : Prop :=
  (s.punk_index_to_address.map Prod.fst).Nodup ∧
  (s.punks_offered_for_sale.map Prod.fst).Nodup ∧
  (s.pending_withdrawals.map Prod.fst).Nodup ∧
  (s.balance_of.map Prod.fst).Nodup

theorem keysNodup_call {s s' : Cryptopunks} (op : Op) (h : KeysNodup s)
    (hc : s.call op = some s') : KeysNodup s' := by
  obtain ⟨k1, k2, k3, k4⟩ := h
  cases op with
  | reserve c m =>
    simp only [Cryptopunks.call, reserve_punks_for_owner] at hc
    split at hc
    · split at hc
      · split at hc
        · injection hc with hc
          subst hc
          exact ⟨assignRange_keys_nodup _ _ _ _ k1, k2, k3, mapSet_keys_nodup _ _ _ k4⟩
        · exact Option.noConfusion hc
      · exact Option.noConfusion hc
    · exact Option.noConfusion hc
  | claim c i =>
    simp only [Cryptopunks.call, get_punk] at hc
    split at hc
    · split at hc
      · split at hc
        · injection hc with hc
          subst hc
          exact ⟨mapSet_keys_nodup _ _ _ k1, k2, k3, mapSet_keys_nodup _ _ _ k4⟩
        · exact Option.noConfusion hc
      · exact Option.noConfusion hc
    · exact Option.noConfusion hc
  | transfer c t i =>
    simp only [Cryptopunks.call, transfer_punk] at hc
    split at hc
    · exact Option.noConfusion hc
    · split at hc
      · split at hc
        · exact Option.noConfusion hc
        · split at hc
          · split at hc
            · injection hc with hc
              subst hc
              exact ⟨mapSet_keys_nodup _ _ _ k1, k2, k3,
                mapSet_keys_nodup _ _ _ (mapSet_keys_nodup _ _ _ k4)⟩
            · exact Option.noConfusion hc
          · exact Option.noConfusion hc
      · exact Option.noConfusion hc
  | offer c i p a =>
    simp only [Cryptopunks.call, offer_punk_for_sale] at hc
    split at hc
    · injection hc with hc
      subst hc
      exact ⟨k1, mapSet_keys_nodup _ _ _ k2, k3, k4⟩
    · exact Option.noConfusion hc
  | buy c i p =>
    simp only [Cryptopunks.call, buy_punk] at hc
    split at hc
    · exact Option.noConfusion hc
    · split at hc
      · split at hc
        · split at hc
          · split at hc
            · injection hc with hc
              subst hc
              exact ⟨k1, mapSet_keys_nodup _ _ _ k2, mapSet_keys_nodup _ _ _ k3, k4⟩
            · exact Option.noConfusion hc
          · exact Option.noConfusion hc
        · exact Option.noConfusion hc
      · exact Option.noConfusion hc
  | withdraw c ok =>
    simp only [Cryptopunks.call, withdraw] at hc
    split at hc
    · exact Option.noConfusion hc
    · split at hc
      · split at hc
        · injection hc with hc
          subst hc
          exact ⟨k1, k2, mapSet_keys_nodup _ _ _ k3, k4⟩
        · exact Option.noConfusion hc
      · exact Option.noConfusion hc

theorem keysNodup_reachable {s : Cryptopunks} (h : Reachable s) : KeysNodup s := by
  induction h with
  | init d => exact ⟨List.nodup_nil, List.nodup_nil, List.nodup_nil, List.nodup_nil⟩
  | step op hr hv hc ih => exact keysNodup_call op ih hc
